import Mathlib

/-!
Shallow embedding of the font table transformation engine of
maple-font (`src/build.py` and `src/source/py/feature.py`),
together with proofs of the specification's claims about it.

Python strings are modelled as Lean `String`, Python dicts as
ordered association lists (insertion order = list order), Python
integers as `Int`/`Nat`.
-/

namespace MapleFont

/-! Python string primitives, embedded as structurally recursive
functions over the character lists of Lean strings (so that all of
them evaluate by kernel reduction). -/

/-- Test that `pat` is a leading segment of `s`. -/
def isLead : List Char → List Char → Bool
  | [], _ => true
  | _ :: _, [] => false
  | a :: as, b :: bs => a = b && isLead as bs

/-- Python `s.endswith(suf)`: the last `len(suf)` characters of `s`
equal `suf`. -/
def pyEndsWith (s suf : String) : Bool :=
  let n := s.data.length
  let m := suf.data.length
  decide (m ≤ n) && decide (s.data.drop (n - m) = suf.data)

/-- Python `s[0]` (only ever evaluated on nonempty strings). -/
def pyFront (s : String) : Char :=
  s.data.headD 'A'

/-- Python `s[:-n]` for `n ≥ 1`: all but the last `n` characters
(empty when `len(s) ≤ n`). -/
def pyDropRight (s : String) (n : Nat) : String :=
  ⟨s.data.take (s.data.length - n)⟩

/-- Fuel-driven scan of Python `s.replace(pat, rep)`: leftmost,
non-overlapping occurrences. The fuel is the length of `s`; it
suffices because every step consumes at least one character when
`pat` is nonempty (the engine only replaces the pattern "Italic"). -/
def replaceGo (pat rep : List Char) : Nat → List Char → List Char
  | 0, s => s
  | fuel + 1, s =>
    match s with
    | [] => []
    | c :: rest =>
      if isLead pat s then rep ++ replaceGo pat rep fuel (s.drop pat.length)
      else c :: replaceGo pat rep fuel rest

/-- Python `s.replace(pat, rep)`. -/
def pyReplace (s pat rep : String) : String :=
  ⟨replaceGo pat.data rep.data s.data.length s.data⟩

/-- Scan for an occurrence of `pat` at any position. -/
def containsGo (pat : List Char) : List Char → Bool
  | [] => isLead pat []
  | c :: rest => isLead pat (c :: rest) || containsGo pat rest

/-- Python `pat in s`: substring containment. -/
def pyContains (s pat : String) : Bool :=
  containsGo pat.data s.data

/-- Embedding of `parse_font_name` (src/build.py lines 304-319).
Returns the tuple
(family-name suffix, name-ID-2 subfamily, display style name, is_italic). -/
def parse_font_name (style_name_compact : String)
    (skip_subfamily_list : List String) :
    String × String × String × Bool :=
  let is_italic := pyEndsWith style_name_compact "Italic"
  -- `style_name_compact[0] != "I"`; the token is nonempty whenever this
  -- is evaluated since it ends with "Italic".
  let style_name :=
    if is_italic && pyFront style_name_compact != 'I' then
      pyDropRight style_name_compact 6 ++ " Italic"
    else
      style_name_compact
  if style_name_compact ∈ skip_subfamily_list then
    ("", style_name, style_name, is_italic)
  else
    (" " ++ pyReplace style_name_compact "Italic" "",
     if is_italic then "Italic" else "Regular",
     style_name,
     is_italic)

/-- Embedding of `BuildOption.skip_subfamily_list` (src/build.py line 249). -/
def skip_subfamily_list : List String :=
  ["Regular", "Bold", "Italic", "BoldItalic"]

/-- Embedding of `get_unique_identifier` (src/build.py lines 353-366).
Here `freeze_config` is the policy dict as an ordered association list;
iteration order of `config.items()` is insertion order. -/
def get_unique_identifier (postscript_name : String)
    (freeze_config : List (String × String))
    (narrow : Bool) (suffix : String) : String :=
  let suffix :=
    if suffix = "" then
      freeze_config.foldl
        (fun acc kv =>
          if kv.2 = "enable" then acc ++ "+" ++ kv.1 ++ ";"
          else if kv.2 = "disable" then acc ++ "-" ++ kv.1 ++ ";"
          else acc)
        suffix
    else suffix
  let suffix :=
    if pyContains postscript_name "CN" && narrow then
      "Narrow;" ++ suffix
    else suffix
  "Version 7.000;SUBF;" ++ postscript_name ++ ";2024;FL830;" ++ suffix

/-! ## Font Table Model -/

/-- Glyph outline data (one `glyf` table entry): contour count,
coordinate array and bounding box. The outline payload is exactly what
`change_char_width` reads and writes; `freeze_feature` copies entries
wholesale without inspecting them. -/
structure Glyph where
  numberOfContours : Int
  coordinates : List (Int × Int)
  xMin : Int
  yMin : Int
  xMax : Int
  yMax : Int
deriving Repr, DecidableEq

/-- One GSUB feature record: a feature tag and its lookup-index list
(`feature.FeatureTag`, `feature.Feature.LookupListIndex`). -/
structure FeatureRec where
  tag : String
  lookupListIndex : List Nat
deriving Repr, DecidableEq

/-- Font Table Model: the tables that `freeze_feature` and
`change_char_width` touch. `lookupList` holds, for lookup index `i`,
the ordered pairs of `font["GSUB"].table.LookupList.Lookup[i].SubTable[0].mapping`.
The `glyf` and `hmtx` stores are Python dicts, modelled as ordered
association lists with unique keys. -/
structure Font where
  featureRecord : List FeatureRec
  lookupList : List (List (String × String))
  glyphOrder : List String
  glyf : List (String × Glyph)
  hmtx : List (String × (Int × Int))
  advanceWidthMax : Int
deriving Repr, DecidableEq

/-- Python dict read `d[k]` / `d.get(k)`: value at the first (unique)
matching key. -/
def getA {V : Type} : List (String × V) → String → Option V
  | [], _ => none
  | p :: rest, k => if p.1 = k then some p.2 else getA rest k

/-- Python `k in d`. -/
def hasKey {V : Type} (l : List (String × V)) (k : String) : Bool :=
  (getA l k).isSome

/-- Python dict write `d[k] = v` for a key already present (the only
case the engine performs, always guarded by a membership check):
overwrite the value in place, preserving insertion order. -/
def setA {V : Type} (l : List (String × V)) (k : String) (v : V) :
    List (String × V) :=
  l.map (fun p => if p.1 = k then (k, v) else p)

/-! ## Feature Freeze Engine (src/source/py/feature.py) -/

/-- Index of the last record with the given tag (a Python dict
comprehension keeps the last value per key). -/
def lastIdxWithTag (recs : List FeatureRec) (tag : String) : Option Nat :=
  match recs with
  | [] => none
  | r :: rest =>
    match lastIdxWithTag rest tag with
    | some i => some (i + 1)
    | none => if r.tag = tag then some 0 else none

/-- Result of `feature_dict.get(tag)` (feature.py lines 4-8, 16): the dict
is built from all records whose tag is not "calt", last record winning
per tag; we return the index of that record. -/
def featDictIdx (recs : List FeatureRec) (tag : String) : Option Nat :=
  if tag = "calt" then none else lastIdxWithTag recs tag

/-- Mutation `target_feature.LookupListIndex = []` (feature.py line 21)
on the record at index `i`. -/
def clearFeature (recs : List FeatureRec) (i : Nat) : List FeatureRec :=
  match recs.get? i with
  | some r => recs.set i { r with lookupListIndex := [] }
  | none => recs

/-- Loop `for calt_feat in calt_features: calt_feat.LookupListIndex.extend(...)`
(feature.py lines 26-27): extend every "calt" record's lookup list by
the target feature's lookup indices. -/
def extendCalt (recs : List FeatureRec) (tgt : List Nat) : List FeatureRec :=
  recs.map (fun r =>
    if r.tag = "calt" then
      { r with lookupListIndex := r.lookupListIndex ++ tgt }
    else r)

/-- Inner pair loop of the direct-substitution branch (feature.py lines
34-45): thread the glyf and hmtx stores through the mapping pairs in
order; when any of the four membership checks fails, stop and report
the pair (the `print` plus `return`). -/
def substPairs (glyf : List (String × Glyph))
    (hmtx : List (String × (Int × Int))) :
    List (String × String) →
      List (String × Glyph) × List (String × (Int × Int)) ×
        Option (String × String)
  | [] => (glyf, hmtx, none)
  | (oldKey, newKey) :: rest =>
    match getA glyf oldKey, getA hmtx oldKey, getA glyf newKey,
        getA hmtx newKey with
    | some _, some _, some g, some m =>
      substPairs (setA glyf oldKey g) (setA hmtx oldKey m) rest
    | _, _, _, _ => (glyf, hmtx, some (oldKey, newKey))

/-- Loop `for index in target_feature.LookupListIndex` (feature.py lines
32-33). Lookup indices produced by fontTools are always in range, so the
out-of-range default (an empty mapping) is never exercised. -/
def substLookups (lookupList : List (List (String × String)))
    (glyf : List (String × Glyph)) (hmtx : List (String × (Int × Int))) :
    List Nat →
      List (String × Glyph) × List (String × (Int × Int)) ×
        Option (String × String)
  | [] => (glyf, hmtx, none)
  | i :: rest =>
    match substPairs glyf hmtx (lookupList.getD i []) with
    | (g, h, none) => substLookups lookupList g h rest
    | (g, h, some p) => (g, h, some p)

/-- Main loop `for tag, status in config.items()` (feature.py lines
15-45), threading the font state. The second component of the result is
the reported (old, new) pair when the run hit a missing glyph name and
returned early; `none` when the loop ran to completion. -/
def freezeLoop (moving_rules : List String) :
    Font → List (String × String) → Font × Option (String × String)
  | font, [] => (font, none)
  | font, (tag, status) :: rest =>
    match featDictIdx font.featureRecord tag with
    | none => freezeLoop moving_rules font rest
    | some i =>
      if status = "ignore" then freezeLoop moving_rules font rest
      else if status = "disable" then
        freezeLoop moving_rules
          { font with featureRecord := clearFeature font.featureRecord i }
          rest
      else
        let tgt := (font.featureRecord.getD i ⟨"", []⟩).lookupListIndex
        if tag ∈ moving_rules then
          freezeLoop moving_rules
            { font with featureRecord := extendCalt font.featureRecord tgt }
            rest
        else
          match substLookups font.lookupList font.glyf font.hmtx tgt with
          | (g, h, none) =>
            freezeLoop moving_rules { font with glyf := g, hmtx := h } rest
          | (g, h, some p) => ({ font with glyf := g, hmtx := h }, some p)

/-- Embedding of `freeze_feature` (src/source/py/feature.py lines 1-45). -/
def freeze_feature (font : Font) (moving_rules : List String)
    (config : List (String × String)) : Font × Option (String × String) :=
  freezeLoop moving_rules font config

/-- Embedding of `freeze` (src/build.py lines 262-270): freeze with this
build's moving rules. -/
def freeze (font : Font) (freeze_config : List (String × String)) :
    Font × Option (String × String) :=
  freeze_feature font ["ss03", "ss05", "ss07"] freeze_config

/-! ## Glyph width normalizer (src/build.py lines 369-385) -/

/-- Python `round((target_width - width) / 2)` for integer inputs: the
argument is an exact half-integer, and Python rounds halves to the
nearest even integer (banker's rounding). `roundHalfInt d` computes
`round(d / 2)`. -/
def roundHalfInt (d : Int) : Int :=
  if d % 2 = 0 then d / 2
  else
    let k := (d - 1) / 2
    if k % 2 = 0 then k else k + 1

/-- Coordinate translation `glyph.coordinates.translate((delta, 0))`. -/
def translateCoords (coords : List (Int × Int)) (delta : Int) :
    List (Int × Int) :=
  coords.map (fun p => (p.1 + delta, p.2))

/-- Bounding box `glyph.coordinates.calcIntBounds()`: on integer
coordinates this is (xMin, yMin, xMax, yMax), and (0, 0, 0, 0) for an
empty coordinate array (fontTools `calcBounds([])`). -/
def calcIntBounds : List (Int × Int) → Int × Int × Int × Int
  | [] => (0, 0, 0, 0)
  | p :: ps =>
    ps.foldl
      (fun b q => (min b.1 q.1, min b.2.1 q.2, max b.2.2.1 q.1,
        max b.2.2.2 q.2))
      (p.1, p.2, p.1, p.2)

/-- Loop body of `change_char_width` for one glyph name: read the glyph
and its metrics, skip when the width differs from `match_width`,
otherwise update metrics (and, for contoured glyphs, translate the
outline and recompute its bounding box). fontTools guarantees every
name in the glyph order has `glyf` and `hmtx` entries, so the final
fallback arm is never exercised. -/
def changeOne (f : Font) (name : String) (match_width target_width : Int) :
    Font :=
  match getA f.glyf name, getA f.hmtx name with
  | some glyph, some wl =>
    let width := wl.1
    let lsb := wl.2
    if width ≠ match_width then f
    else if glyph.numberOfContours = 0 then
      { f with hmtx := setA f.hmtx name (target_width, lsb) }
    else
      let delta := roundHalfInt (target_width - width)
      let coords := translateCoords glyph.coordinates delta
      let b := calcIntBounds coords
      { f with
        glyf := setA f.glyf name
          { glyph with
            coordinates := coords
            xMin := b.1
            yMin := b.2.1
            xMax := b.2.2.1
            yMax := b.2.2.2 }
        hmtx := setA f.hmtx name (target_width, lsb + delta) }
  | _, _ => f

/-- Embedding of `change_char_width` (src/build.py lines 369-385). -/
def change_char_width (font : Font) (match_width target_width : Int) :
    Font :=
  ({ font with advanceWidthMax := target_width }).glyphOrder.foldl
    (fun f name => changeOne f name match_width target_width)
    { font with advanceWidthMax := target_width }

/-! ## Naming part of the style build driver (src/build.py lines 388-429) -/

/-- Naming-table values `build_mono` computes for one style: name IDs
1, 2, 3, 4, 6, the optional typographic IDs 16/17, and the OS/2
weight-class override. -/
structure NameSet where
  id1 : String
  id2 : String
  id3 : String
  id4 : String
  id6 : String
  id16 : Option String
  id17 : Option String
  weightClassOverride : Option Nat
deriving Repr, DecidableEq

/-- Embedding of the pure naming computation of `build_mono`
(src/build.py lines 392-429): everything `set_font_name` receives, plus
the usWeightClass override. -/
def build_mono_names (family_name family_name_compact : String)
    (feature_freeze : List (String × String)) (style_compact : String) :
    NameSet :=
  let parsed := parse_font_name style_compact skip_subfamily_list
  let styleSpace := parsed.1
  let style_in_2 := parsed.2.1
  let style := parsed.2.2.1
  let postscript_name := family_name_compact ++ "-" ++ style_compact
  { id1 := family_name ++ styleSpace
    id2 := style_in_2
    id3 := get_unique_identifier postscript_name feature_freeze false ""
    id4 := family_name ++ " " ++ style
    id6 := postscript_name
    id16 :=
      if style_compact ∈ skip_subfamily_list then none else some family_name
    id17 :=
      if style_compact ∈ skip_subfamily_list then none else some style
    weightClassOverride :=
      if styleSpace = " Thin" then some 250
      else if styleSpace = " ExtraLight" then some 275
      else none }

/-! ## Spec-side reformulations (named after the spec's words, for
refinement-style comparisons with the source embeddings) -/

/-- Formalization of the spec's description of the feature-state suffix
of the unique identifier: a string "listing every non-ignored tag
prefixed with + (enabled) or - (disabled), semicolon-terminated", in
the policy's declared order. -/
def specFeatureSuffix : List (String × String) → String
  | [] => ""
  | kv :: rest =>
    (if kv.2 = "enable" then "+" ++ kv.1 ++ ";"
     else if kv.2 = "disable" then "-" ++ kv.1 ++ ";"
     else "") ++ specFeatureSuffix rest

/-! ## Concrete example fonts -/

/-- Stub outline used by the concrete example fonts: the engine copies
outline data wholesale, so only distinguishability matters. -/
def glyphStub (n : Int) : Glyph :=
  ⟨n, [], 0, 0, 0, 0⟩

/-- Example font for the abort behavior of the direct-substitution
branch: feature "ss01" maps a→b and then c→zz where "zz" exists in no
store; feature "ss02" maps d→e. -/
def substAbortFont : Font :=
  { featureRecord := [⟨"ss01", [0]⟩, ⟨"ss02", [1]⟩]
    lookupList := [[("a", "b"), ("c", "zz")], [("d", "e")]]
    glyphOrder := []
    glyf := [("a", glyphStub 1), ("b", glyphStub 2), ("c", glyphStub 3),
      ("d", glyphStub 4), ("e", glyphStub 5)]
    hmtx := [("a", (10, 1)), ("b", (20, 2)), ("c", (30, 3)),
      ("d", (40, 4)), ("e", (50, 5))]
    advanceWidthMax := 0 }

/-- Example font with a "calt" feature and a moving-tag feature
"ss03". -/
def movingTagFont : Font :=
  { featureRecord := [⟨"calt", [0]⟩, ⟨"ss03", [1]⟩]
    lookupList := []
    glyphOrder := []
    glyf := []
    hmtx := []
    advanceWidthMax := 0 }

/-- Example font for the width normalizer: one contoured glyph of
width 1200 with left side bearing 50, and one contourless glyph of
width 1200. -/
def narrowExampleFont : Font :=
  { featureRecord := []
    lookupList := []
    glyphOrder := ["one", "blank"]
    glyf := [("one", ⟨1, [(100, 0), (1100, 800)], 100, 0, 1100, 800⟩),
      ("blank", ⟨0, [], 0, 0, 0, 0⟩)]
    hmtx := [("one", (1200, 50)), ("blank", (1200, 0))]
    advanceWidthMax := 1200 }

/-! ## Theorems -/

/-- Helper: the italic flag returned by `parse_font_name` is exactly the
"ends with Italic" test, in both branches of the skip-list split. -/
theorem parse_font_name_italic (token : String) (skip : List String) :
    (parse_font_name token skip).2.2.2 = pyEndsWith token "Italic" := by
  unfold parse_font_name
  split <;> rfl

/-- Helper: the display style name returned by `parse_font_name` is the
split form exactly when the token ends with "Italic" and does not start
with 'I', in both branches of the skip-list split. -/
theorem parse_font_name_display (token : String) (skip : List String) :
    (parse_font_name token skip).2.2.1 =
      (if pyEndsWith token "Italic" && pyFront token != 'I' then
        pyDropRight token 6 ++ " Italic"
      else token) := by
  unfold parse_font_name
  split <;> rfl

/-- C4: the claim states a token is classified italic iff it ends with
"Italic" and its first character is not "I". The code's classifier
(`is_italic`, src/build.py line 305) tests only the suffix, so the
token "Italic" itself is classified italic although its first character
is "I": the claimed equivalence fails there. -/
theorem C4_italic_only_cex :
    (parse_font_name "Italic" skip_subfamily_list).2.2.2 = true ∧
      pyEndsWith "Italic" "Italic" = true ∧ pyFront "Italic" = 'I' := by
  exact ⟨by decide, by decide, by decide⟩

/-- C4 (amended): a style token is classified italic iff it ends with
the literal suffix "Italic"; the first-character guard affects only the
display-name splitting, not the italic classification. -/
theorem C4_italic_detection (token : String) (skip : List String) :
    (parse_font_name token skip).2.2.2 = true ↔
      pyEndsWith token "Italic" = true := by
  rw [parse_font_name_italic]

/-- C9: the claim states every italic token other than exactly "Italic"
is split. The code's split guard (src/build.py line 308) is "first
character is not I", so the token "IceItalic" — italic and distinct
from "Italic" — is not split: its display style name stays "IceItalic"
rather than the claimed "Ice Italic". -/
theorem C9_ice_italic_cex :
    (parse_font_name "IceItalic" skip_subfamily_list).2.2.2 = true ∧
      "IceItalic" ≠ "Italic" ∧
      (parse_font_name "IceItalic" skip_subfamily_list).2.2.1 =
        "IceItalic" ∧
      (parse_font_name "IceItalic" skip_subfamily_list).2.2.1 ≠
        "Ice Italic" := by
  refine ⟨by decide, by decide, by decide, by decide⟩

/-- C9 (amended): an italic style token is split exactly when its first
character is not "I": then the display style name is the token with the
trailing "Italic" removed, a single space inserted and "Italic"
re-appended; an italic token starting with "I" – in particular the
token exactly "Italic" – keeps its display style name unchanged
("BoldItalic" → "Bold Italic", "Italic" → "Italic"). -/
theorem C9_display_style_split :
    (∀ (token : String) (skip : List String),
        pyEndsWith token "Italic" = true → pyFront token ≠ 'I' →
        (parse_font_name token skip).2.2.1 =
          pyDropRight token 6 ++ " Italic") ∧
    (∀ (token : String) (skip : List String),
        pyFront token = 'I' →
        (parse_font_name token skip).2.2.1 = token) ∧
    (parse_font_name "BoldItalic" skip_subfamily_list).2.2.1 =
      "Bold Italic" ∧
    (parse_font_name "Italic" skip_subfamily_list).2.2.1 = "Italic" := by
  refine ⟨?_, ?_, by decide, by decide⟩
  · intro token skip h hI
    rw [parse_font_name_display, h]
    simp [hI]
  · intro token skip hI
    rw [parse_font_name_display, hI]
    simp

/-- C9 witness: the general split rule applied at the concrete token
"BoldItalic". -/
theorem C9_display_style_split_witness :
    pyEndsWith "BoldItalic" "Italic" = true ∧
      pyFront "BoldItalic" ≠ 'I' ∧
      (parse_font_name "BoldItalic" skip_subfamily_list).2.2.1 =
        pyDropRight "BoldItalic" 6 ++ " Italic" :=
  ⟨by decide, by decide,
    C9_display_style_split.1 "BoldItalic" skip_subfamily_list
      (by decide) (by decide)⟩

/-- Helper: string append is associative. -/
theorem str_append_assoc (a b c : String) : a ++ b ++ c = a ++ (b ++ c) := by
  apply String.ext
  simp [String.data_append]

/-- Helper: the suffix accumulation loop of `get_unique_identifier`
appends `specFeatureSuffix` to the accumulator. -/
theorem uid_foldl_suffix (config : List (String × String)) (acc : String) :
    config.foldl
      (fun acc kv =>
        if kv.2 = "enable" then acc ++ "+" ++ kv.1 ++ ";"
        else if kv.2 = "disable" then acc ++ "-" ++ kv.1 ++ ";"
        else acc)
      acc = acc ++ specFeatureSuffix config := by
  induction config generalizing acc with
  | nil => simp [specFeatureSuffix, String.append_empty]
  | cons kv rest ih =>
    simp only [List.foldl_cons, specFeatureSuffix]
    by_cases h1 : kv.2 = "enable"
    · rw [if_pos h1, if_pos h1, ih]
      simp only [str_append_assoc]
    · by_cases h2 : kv.2 = "disable"
      · rw [if_neg h1, if_neg h1, if_pos h2, if_pos h2, ih]
        simp only [str_append_assoc]
      · rw [if_neg h1, if_neg h1, if_neg h2, if_neg h2, ih,
          String.empty_append]

/-- C3: the unique identifier (name ID 3) is the fixed prefix
"Version 7.000;SUBF;", the PostScript name, ";2024;FL830;", an optional
"Narrow;" marker (exactly when the name is a CN name and the narrowed
variant is being built), and the feature-state suffix listing every
non-ignored tag in the policy's declared order, "+"-prefixed when
enabled, "-"-prefixed when disabled, each semicolon-terminated; in
particular the claim's concrete example holds verbatim. -/
theorem C3_unique_identifier :
    (∀ (psname : String) (config : List (String × String)) (narrow : Bool),
        (∀ p ∈ config,
          p.2 = "ignore" ∨ p.2 = "enable" ∨ p.2 = "disable") →
        get_unique_identifier psname config narrow "" =
          "Version 7.000;SUBF;" ++ psname ++ ";2024;FL830;" ++
            ((if pyContains psname "CN" && narrow then "Narrow;" else "") ++
              specFeatureSuffix config)) ∧
    get_unique_identifier "MapleMono-Bold"
        [("ss03", "enable"), ("cv01", "disable")] false "" =
      "Version 7.000;SUBF;MapleMono-Bold;2024;FL830;+ss03;-cv01;" := by
  constructor
  · intro psname config narrow _
    unfold get_unique_identifier
    rw [if_pos rfl, uid_foldl_suffix, String.empty_append]
    dsimp only
    by_cases h : pyContains psname "CN" && narrow
    · rw [if_pos h, if_pos h]
    · rw [if_neg h, if_neg h, String.empty_append]
  · decide

/-- C3 witness: the general identifier format applied at the claim's
concrete example. -/
theorem C3_unique_identifier_witness :
    get_unique_identifier "MapleMono-Bold"
        [("ss03", "enable"), ("cv01", "disable")] false "" =
      "Version 7.000;SUBF;" ++ "MapleMono-Bold" ++ ";2024;FL830;" ++
        ((if pyContains "MapleMono-Bold" "CN" && false then "Narrow;"
          else "") ++
          specFeatureSuffix [("ss03", "enable"), ("cv01", "disable")]) :=
  C3_unique_identifier.1 "MapleMono-Bold"
    [("ss03", "enable"), ("cv01", "disable")] false (by decide)

/-- C5: for a style token in the skip-list {Regular, Bold, Italic,
BoldItalic} the family-name suffix is empty (name ID 1 is the bare
family name), name ID 2 is the display style name and the typographic
IDs 16/17 are omitted; for every other token name ID 1 carries a
single leading space plus the token with "Italic" removed, name ID 2
is "Italic"/"Regular" by the italic flag, ID 16 is the bare family
name and ID 17 is the display style name. -/
theorem C5_subfamily_names (family_name family_name_compact : String)
    (feature_freeze : List (String × String)) (token : String) :
    (token ∈ skip_subfamily_list →
      (build_mono_names family_name family_name_compact feature_freeze
          token).id1 = family_name ∧
      (build_mono_names family_name family_name_compact feature_freeze
          token).id2 =
        (parse_font_name token skip_subfamily_list).2.2.1 ∧
      (build_mono_names family_name family_name_compact feature_freeze
          token).id16 = none ∧
      (build_mono_names family_name family_name_compact feature_freeze
          token).id17 = none) ∧
    (token ∉ skip_subfamily_list →
      (build_mono_names family_name family_name_compact feature_freeze
          token).id1 =
        family_name ++ (" " ++ pyReplace token "Italic" "") ∧
      (build_mono_names family_name family_name_compact feature_freeze
          token).id2 =
        (if pyEndsWith token "Italic" then "Italic" else "Regular") ∧
      (build_mono_names family_name family_name_compact feature_freeze
          token).id16 = some family_name ∧
      (build_mono_names family_name family_name_compact feature_freeze
          token).id17 =
        some (parse_font_name token skip_subfamily_list).2.2.1) := by
  constructor
  · intro h
    simp only [build_mono_names, parse_font_name, if_pos h]
    simp [String.append_empty]
  · intro h
    simp only [build_mono_names, parse_font_name, if_neg h]
    simp

/-- C5 witness: both branches of the skip-list split, applied at the
concrete tokens "Bold" (a member) and "Thin" (not a member). -/
theorem C5_subfamily_names_witness :
    "Bold" ∈ skip_subfamily_list ∧
      (build_mono_names "Maple Mono" "MapleMono" [] "Bold").id16 = none ∧
      "Thin" ∉ skip_subfamily_list ∧
      (build_mono_names "Maple Mono" "MapleMono" [] "Thin").id17 =
        some (parse_font_name "Thin" skip_subfamily_list).2.2.1 :=
  ⟨by decide,
    ((C5_subfamily_names "Maple Mono" "MapleMono" [] "Bold").1
      (by decide)).2.2.1,
    by decide,
    ((C5_subfamily_names "Maple Mono" "MapleMono" [] "Thin").2
      (by decide)).2.2.2⟩

/-! ### Helper lemmas on the feature list -/

/-- Helper: a found last-index is in range and carries the tag. -/
theorem lastIdxWithTag_some (recs : List FeatureRec) (tag : String)
    (i : Nat) (h : lastIdxWithTag recs tag = some i) :
    i < recs.length ∧ (recs.getD i ⟨"", []⟩).tag = tag := by
  induction recs generalizing i with
  | nil => simp [lastIdxWithTag] at h
  | cons r rest ih =>
    rw [lastIdxWithTag] at h
    cases hrest : lastIdxWithTag rest tag with
    | some j =>
      rw [hrest] at h
      injection h with h
      subst h
      obtain ⟨h1, h2⟩ := ih j hrest
      exact ⟨Nat.succ_lt_succ h1, by simpa using h2⟩
    | none =>
      rw [hrest] at h
      by_cases hr : r.tag = tag
      · rw [if_pos hr] at h
        injection h with h
        subst h
        exact ⟨Nat.succ_pos _, by simpa using hr⟩
      · rw [if_neg hr] at h
        cases h

/-- Helper: the last-index search depends only on the tags. -/
theorem lastIdxWithTag_congr {recs recs' : List FeatureRec}
    (h : recs.map FeatureRec.tag = recs'.map FeatureRec.tag)
    (tag : String) :
    lastIdxWithTag recs tag = lastIdxWithTag recs' tag := by
  induction recs generalizing recs' with
  | nil =>
    cases recs' with
    | nil => rfl
    | cons r' rest' => simp at h
  | cons r rest ih =>
    cases recs' with
    | nil => simp at h
    | cons r' rest' =>
      simp only [List.map_cons, List.cons.injEq] at h
      rw [lastIdxWithTag, lastIdxWithTag, ih h.2, h.1]

/-- Helper: a resolved feature-dict index is in range, carries the tag,
and the tag is not "calt". -/
theorem featDictIdx_some {recs : List FeatureRec} {tag : String} {i : Nat}
    (h : featDictIdx recs tag = some i) :
    i < recs.length ∧ (recs.getD i ⟨"", []⟩).tag = tag ∧ tag ≠ "calt" := by
  unfold featDictIdx at h
  by_cases hc : tag = "calt"
  · rw [if_pos hc] at h
    cases h
  · rw [if_neg hc] at h
    obtain ⟨h1, h2⟩ := lastIdxWithTag_some recs tag i h
    exact ⟨h1, h2, hc⟩

/-- Helper: the feature-dict lookup depends only on the tags. -/
theorem featDictIdx_congr {recs recs' : List FeatureRec}
    (h : recs.map FeatureRec.tag = recs'.map FeatureRec.tag)
    (tag : String) :
    featDictIdx recs tag = featDictIdx recs' tag := by
  unfold featDictIdx
  by_cases hc : tag = "calt"
  · rw [if_pos hc, if_pos hc]
  · rw [if_neg hc, if_neg hc, lastIdxWithTag_congr h]

/-- Helper: a successful positional lookup implies the index is in
range. -/
theorem get?_some_lt {α : Type} {l : List α} {i : Nat} {a : α}
    (h : l.get? i = some a) : i < l.length := by
  rw [List.get?_eq_getElem?] at h
  by_contra hlt
  rw [List.getElem?_eq_none_iff.mpr (by omega)] at h
  cases h

/-- Helper: clearing a feature preserves the length of the list. -/
theorem clearFeature_length (recs : List FeatureRec) (i : Nat) :
    (clearFeature recs i).length = recs.length := by
  unfold clearFeature
  cases recs.get? i with
  | none => rfl
  | some r => exact List.length_set ..

/-- Helper: clearing a feature preserves every tag. -/
theorem clearFeature_tags (recs : List FeatureRec) (i : Nat) :
    (clearFeature recs i).map FeatureRec.tag = recs.map FeatureRec.tag := by
  unfold clearFeature
  cases hget : recs.get? i with
  | none => rfl
  | some r =>
    rw [List.map_set]
    have hi : i < recs.length := get?_some_lt hget
    have hr : recs[i] = r := by
      rw [List.get?_eq_getElem?] at hget
      simpa [List.getElem?_eq_getElem hi] using hget
    apply List.ext_getElem?
    intro n
    by_cases hn : n = i
    · subst hn
      simp [List.getElem?_set, hi, List.getElem?_eq_getElem, ← hr]
    · simp [List.getElem?_set, hn, Ne.symm hn]

/-- Helper: clearing a feature leaves every other index unchanged. -/
theorem clearFeature_getD_ne (recs : List FeatureRec) (i j : Nat)
    (d : FeatureRec) (h : i ≠ j) :
    (clearFeature recs i).getD j d = recs.getD j d := by
  unfold clearFeature
  cases recs.get? i with
  | none => rfl
  | some r =>
    simp [List.getD_eq_getElem?_getD, List.getElem?_set, h]

/-- Helper: clearing a feature at an in-range index empties exactly its
lookup list. -/
theorem clearFeature_getD_self (recs : List FeatureRec) (i : Nat)
    (d : FeatureRec) (h : i < recs.length) :
    (clearFeature recs i).getD i d =
      { recs.getD i d with lookupListIndex := [] } := by
  unfold clearFeature
  cases hget : recs.get? i with
  | none =>
    rw [List.get?_eq_getElem?, List.getElem?_eq_none_iff] at hget
    omega
  | some r =>
    have hr : recs[i] = r := by
      rw [List.get?_eq_getElem?] at hget
      simpa [List.getElem?_eq_getElem h] using hget
    simp [List.getD_eq_getElem?_getD, List.getElem?_set, h, ← hr,
      List.getElem?_eq_getElem h]

/-- Helper: clearing an already-cleared index is the identity. -/
theorem clearFeature_cleared (recs : List FeatureRec) (i : Nat)
    (h : (recs.getD i ⟨"", []⟩).lookupListIndex = []) :
    clearFeature recs i = recs := by
  unfold clearFeature
  cases hget : recs.get? i with
  | none => rfl
  | some r =>
    have hi : i < recs.length := get?_some_lt hget
    have hr : recs[i] = r := by
      rw [List.get?_eq_getElem?] at hget
      simpa [List.getElem?_eq_getElem hi] using hget
    have hre : r.lookupListIndex = [] := by
      rw [List.getD_eq_getElem?_getD, List.getElem?_eq_getElem hi, hr] at h
      exact h
    have hid : { r with lookupListIndex := [] } = r := by
      cases r
      simp_all
    dsimp only
    rw [hid, ← hr]
    apply List.ext_getElem?
    intro n
    by_cases hn : n = i
    · subst hn
      simp [List.getElem?_set, hi, List.getElem?_eq_getElem]
    · simp [List.getElem?_set, hn, Ne.symm hn]

/-- Helper: any cleared index stays cleared under a further clear. -/
theorem clearFeature_keeps_cleared (recs : List FeatureRec) (i j : Nat)
    (h : (recs.getD i ⟨"", []⟩).lookupListIndex = []) :
    ((clearFeature recs j).getD i ⟨"", []⟩).lookupListIndex = [] := by
  by_cases hj : j = i
  · subst hj
    by_cases hlt : j < recs.length
    · rw [clearFeature_getD_self recs j _ hlt]
    · unfold clearFeature
      cases hget : recs.get? j with
      | none => exact h
      | some r =>
        have : j < recs.length := get?_some_lt hget
        omega
  · rw [clearFeature_getD_ne recs j i _ hj]
    exact h

/-- Helper: extending "calt" features preserves the length. -/
theorem extendCalt_length (recs : List FeatureRec) (tgt : List Nat) :
    (extendCalt recs tgt).length = recs.length := by
  unfold extendCalt
  exact List.length_map ..

/-- Helper: extending "calt" features preserves every tag. -/
theorem extendCalt_tags (recs : List FeatureRec) (tgt : List Nat) :
    (extendCalt recs tgt).map FeatureRec.tag = recs.map FeatureRec.tag := by
  unfold extendCalt
  rw [List.map_map]
  apply List.map_congr_left
  intro r _
  by_cases h : r.tag = "calt" <;> simp [h]

/-- Helper: how extending "calt" features acts on each index. -/
theorem extendCalt_getD (recs : List FeatureRec) (tgt : List Nat)
    (j : Nat) (h : j < recs.length) :
    (extendCalt recs tgt).getD j ⟨"", []⟩ =
      (if (recs.getD j ⟨"", []⟩).tag = "calt" then
        { recs.getD j ⟨"", []⟩ with
          lookupListIndex :=
            (recs.getD j ⟨"", []⟩).lookupListIndex ++ tgt }
      else recs.getD j ⟨"", []⟩) := by
  unfold extendCalt
  simp only [List.getD_eq_getElem?_getD, List.getElem?_map,
    List.getElem?_eq_getElem h, List.getElem?_eq_getElem
      (by simpa using h : j < (recs.map _).length)]
  by_cases hc : recs[j].tag = "calt" <;> simp [hc]

/-! ### Step equations for the freeze loop -/

/-- Helper: the empty policy performs no work. -/
theorem freezeLoop_nil (mv : List String) (font : Font) :
    freezeLoop mv font [] = (font, none) := rfl

/-- Helper: a policy tag with no matching non-calt feature is skipped. -/
theorem freezeLoop_cons_none (mv : List String) (font : Font)
    (tag status : String) (rest : List (String × String))
    (h : featDictIdx font.featureRecord tag = none) :
    freezeLoop mv font ((tag, status) :: rest) =
      freezeLoop mv font rest := by
  simp only [freezeLoop, h]

/-- Helper: an "ignore" entry is skipped. -/
theorem freezeLoop_cons_ignore (mv : List String) (font : Font)
    (tag : String) (rest : List (String × String)) :
    freezeLoop mv font ((tag, "ignore") :: rest) =
      freezeLoop mv font rest := by
  cases h : featDictIdx font.featureRecord tag with
  | none => simp only [freezeLoop, h]
  | some i =>
    simp only [freezeLoop, h]
    rw [if_pos trivial]

/-- Helper: a "disable" entry clears the resolved feature's lookup
list and continues. -/
theorem freezeLoop_cons_disable (mv : List String) (font : Font)
    (tag : String) (i : Nat) (rest : List (String × String))
    (h : featDictIdx font.featureRecord tag = some i) :
    freezeLoop mv font ((tag, "disable") :: rest) =
      freezeLoop mv
        { font with featureRecord := clearFeature font.featureRecord i }
        rest := by
  simp only [freezeLoop, h]
  simp

/-- Helper: an enabling entry whose tag is a moving rule extends every
"calt" feature by the target's lookup indices and continues. -/
theorem freezeLoop_cons_moving (mv : List String) (font : Font)
    (tag status : String) (i : Nat) (rest : List (String × String))
    (h : featDictIdx font.featureRecord tag = some i)
    (hs1 : status ≠ "ignore") (hs2 : status ≠ "disable")
    (hm : tag ∈ mv) :
    freezeLoop mv font ((tag, status) :: rest) =
      freezeLoop mv
        { font with
          featureRecord :=
            extendCalt font.featureRecord
              ((font.featureRecord.getD i ⟨"", []⟩).lookupListIndex) }
        rest := by
  simp only [freezeLoop, h]
  rw [if_neg hs1, if_neg hs2, if_pos hm]

/-- Helper: an enabling entry whose tag is not a moving rule runs the
direct substitution; when it completes, the loop continues on the
updated stores. -/
theorem freezeLoop_cons_subst_ok (mv : List String) (font : Font)
    (tag status : String) (i : Nat) (rest : List (String × String))
    (g : List (String × Glyph)) (hm2 : List (String × (Int × Int)))
    (h : featDictIdx font.featureRecord tag = some i)
    (hs1 : status ≠ "ignore") (hs2 : status ≠ "disable")
    (hm : tag ∉ mv)
    (hsub : substLookups font.lookupList font.glyf font.hmtx
        ((font.featureRecord.getD i ⟨"", []⟩).lookupListIndex) =
      (g, hm2, none)) :
    freezeLoop mv font ((tag, status) :: rest) =
      freezeLoop mv { font with glyf := g, hmtx := hm2 } rest := by
  simp only [freezeLoop, h]
  rw [if_neg hs1, if_neg hs2, if_neg hm]
  simp only [hsub]

/-- Helper: an enabling entry whose tag is not a moving rule aborts the
whole run when the substitution pass reports a missing pair; the state
reached so far is returned unchanged and the remaining entries are not
processed. -/
theorem freezeLoop_cons_subst_abort (mv : List String) (font : Font)
    (tag status : String) (i : Nat) (rest : List (String × String))
    (g : List (String × Glyph)) (hm2 : List (String × (Int × Int)))
    (pr : String × String)
    (h : featDictIdx font.featureRecord tag = some i)
    (hs1 : status ≠ "ignore") (hs2 : status ≠ "disable")
    (hm : tag ∉ mv)
    (hsub : substLookups font.lookupList font.glyf font.hmtx
        ((font.featureRecord.getD i ⟨"", []⟩).lookupListIndex) =
      (g, hm2, some pr)) :
    freezeLoop mv font ((tag, status) :: rest) =
      ({ font with glyf := g, hmtx := hm2 }, some pr) := by
  simp only [freezeLoop, h]
  rw [if_neg hs1, if_neg hs2, if_neg hm]
  simp only [hsub]

/-- Helper: a policy whose entries are all "ignore" runs the loop to
completion without changing the font. -/
theorem freezeLoop_all_ignore (mv : List String)
    (config : List (String × String)) :
    ∀ font : Font, (∀ p ∈ config, p.2 = "ignore") →
      freezeLoop mv font config = (font, none) := by
  induction config with
  | nil => intro font _; exact freezeLoop_nil mv font
  | cons p rest ih =>
    intro font hall
    obtain ⟨t, s⟩ := p
    have hs : s = "ignore" := hall (t, s) (List.mem_cons_self _ _)
    subst hs
    rw [freezeLoop_cons_ignore]
    exact ih font (fun q hq => hall q (List.mem_cons_of_mem _ hq))

/-- C8: a "disable" entry whose tag resolves to a feature empties that
feature's lookup-index list while the feature stays declared (the tag
list is unchanged); a policy tag with no matching feature in the font
causes no change and no error for any status; an "ignore" entry causes
no change; an all-"ignore" policy, and the empty policy, leave the
whole Font Table Model unchanged. -/
theorem C8_disable_ignore_semantics :
    (∀ (font : Font) (tag : String) (i : Nat),
        featDictIdx font.featureRecord tag = some i →
        freeze font [(tag, "disable")] =
          ({ font with
              featureRecord := clearFeature font.featureRecord i },
            none) ∧
        (clearFeature font.featureRecord i).map FeatureRec.tag =
          font.featureRecord.map FeatureRec.tag ∧
        ((clearFeature font.featureRecord i).getD i
            ⟨"", []⟩).lookupListIndex = []) ∧
    (∀ (font : Font) (tag status : String),
        featDictIdx font.featureRecord tag = none →
        freeze font [(tag, status)] = (font, none)) ∧
    (∀ (font : Font) (tag : String),
        freeze font [(tag, "ignore")] = (font, none)) ∧
    (∀ (font : Font) (config : List (String × String)),
        (∀ p ∈ config, p.2 = "ignore") →
        freeze font config = (font, none)) ∧
    (∀ font : Font, freeze font [] = (font, none)) := by
  refine ⟨?_, ?_, ?_, ?_, ?_⟩
  · intro font tag i h
    refine ⟨?_, clearFeature_tags font.featureRecord i, ?_⟩
    · unfold freeze freeze_feature
      rw [freezeLoop_cons_disable _ _ _ _ _ h, freezeLoop_nil]
    · obtain ⟨hlt, _, _⟩ := featDictIdx_some h
      rw [clearFeature_getD_self font.featureRecord i _ hlt]
  · intro font tag status h
    unfold freeze freeze_feature
    rw [freezeLoop_cons_none _ _ _ _ _ h, freezeLoop_nil]
  · intro font tag
    unfold freeze freeze_feature
    rw [freezeLoop_cons_ignore, freezeLoop_nil]
  · intro font config hall
    unfold freeze freeze_feature
    exact freezeLoop_all_ignore _ config font hall
  · intro font
    rfl

/-- C8 witness: the "disable", unknown-tag and all-"ignore" branches at
concrete inputs. -/
theorem C8_disable_ignore_semantics_witness :
    featDictIdx movingTagFont.featureRecord "ss03" = some 1 ∧
      freeze movingTagFont [("ss03", "disable")] =
        ({ movingTagFont with
            featureRecord := clearFeature movingTagFont.featureRecord 1 },
          none) ∧
      featDictIdx movingTagFont.featureRecord "zero" = none ∧
      freeze movingTagFont [("zero", "enable")] = (movingTagFont, none) ∧
      freeze movingTagFont [("ss03", "ignore"), ("calt", "ignore")] =
        (movingTagFont, none) :=
  ⟨by decide,
    ((C8_disable_ignore_semantics.1 movingTagFont "ss03" 1 (by decide)).1),
    by decide,
    C8_disable_ignore_semantics.2.1 movingTagFont "zero" "enable"
      (by decide),
    C8_disable_ignore_semantics.2.2.2.1 movingTagFont
      [("ss03", "ignore"), ("calt", "ignore")] (by decide)⟩

/-- Helper: throughout a freeze run, a "calt" record keeps its tag and
its lookup-index list only ever grows by appends at the end. -/
theorem freezeLoop_calt_grows (mv : List String)
    (config : List (String × String)) :
    ∀ (font : Font) (j : Nat), j < font.featureRecord.length →
      (font.featureRecord.getD j ⟨"", []⟩).tag = "calt" →
      ∃ ext,
        ((freezeLoop mv font config).1.featureRecord.getD j
            ⟨"", []⟩).tag = "calt" ∧
        ((freezeLoop mv font config).1.featureRecord.getD j
            ⟨"", []⟩).lookupListIndex =
          (font.featureRecord.getD j ⟨"", []⟩).lookupListIndex ++ ext := by
  induction config with
  | nil =>
    intro font j hj hc
    exact ⟨[], by rw [freezeLoop_nil]; exact hc,
      by rw [freezeLoop_nil, List.append_nil]⟩
  | cons p rest ih =>
    intro font j hj hc
    obtain ⟨t, s⟩ := p
    cases hidx : featDictIdx font.featureRecord t with
    | none =>
      rw [freezeLoop_cons_none mv font t s rest hidx]
      exact ih font j hj hc
    | some i =>
      by_cases hs1 : s = "ignore"
      · subst hs1
        rw [freezeLoop_cons_ignore]
        exact ih font j hj hc
      · by_cases hs2 : s = "disable"
        · subst hs2
          rw [freezeLoop_cons_disable mv font t i rest hidx]
          obtain ⟨hilt, hitag, hcal⟩ := featDictIdx_some hidx
          have hij : i ≠ j := by
            intro e
            subst e
            rw [hc] at hitag
            exact hcal hitag.symm
          have hgd : (clearFeature font.featureRecord i).getD j ⟨"", []⟩ =
              font.featureRecord.getD j ⟨"", []⟩ :=
            clearFeature_getD_ne font.featureRecord i j _ hij
          obtain ⟨ext, h1, h2⟩ :=
            ih { font with
                  featureRecord := clearFeature font.featureRecord i } j
              (by simpa [clearFeature_length] using hj)
              (by rw [hgd]; exact hc)
          exact ⟨ext, h1, by rw [h2, hgd]⟩
        · by_cases hmv : t ∈ mv
          · rw [freezeLoop_cons_moving mv font t s i rest hidx hs1 hs2 hmv]
            have hgd : (extendCalt font.featureRecord
                  ((font.featureRecord.getD i ⟨"", []⟩).lookupListIndex)).getD
                  j ⟨"", []⟩ =
                { font.featureRecord.getD j ⟨"", []⟩ with
                  lookupListIndex :=
                    (font.featureRecord.getD j ⟨"", []⟩).lookupListIndex ++
                      (font.featureRecord.getD i
                        ⟨"", []⟩).lookupListIndex } := by
              rw [extendCalt_getD font.featureRecord _ j hj, if_pos hc]
            obtain ⟨ext, h1, h2⟩ :=
              ih { font with
                    featureRecord :=
                      extendCalt font.featureRecord
                        ((font.featureRecord.getD i
                          ⟨"", []⟩).lookupListIndex) } j
                (by simpa [extendCalt_length] using hj)
                (by rw [hgd]; exact hc)
            refine ⟨(font.featureRecord.getD i
              ⟨"", []⟩).lookupListIndex ++ ext, h1, ?_⟩
            rw [h2, hgd]
            simp [List.append_assoc]
          · rcases hsubv : substLookups font.lookupList font.glyf font.hmtx
                ((font.featureRecord.getD i ⟨"", []⟩).lookupListIndex) with
              ⟨g, h2, p⟩
            cases p with
            | none =>
              rw [freezeLoop_cons_subst_ok mv font t s i rest g h2 hidx hs1
                hs2 hmv hsubv]
              exact ih { font with glyf := g, hmtx := h2 } j hj hc
            | some pr =>
              rw [freezeLoop_cons_subst_abort mv font t s i rest g h2 pr hidx
                hs1 hs2 hmv hsubv]
              exact ⟨[], hc, by rw [List.append_nil]⟩

/-- C10: the feature dict excludes "calt", so a policy entry for the
tag "calt" — whatever its status — is skipped without touching the
model; moreover a "calt" record's lookup-index list changes during a
freeze run only by appends at its end (performed for enabled
moving-tag features), with the original indices kept as a leading
segment in order. -/
theorem C10_calt_not_processable :
    (∀ (mv : List String) (font : Font) (s : String)
        (rest : List (String × String)),
        freezeLoop mv font (("calt", s) :: rest) =
          freezeLoop mv font rest) ∧
    (∀ (font : Font) (config : List (String × String)) (j : Nat),
        j < font.featureRecord.length →
        (font.featureRecord.getD j ⟨"", []⟩).tag = "calt" →
        ∃ ext,
          ((freeze font config).1.featureRecord.getD j
              ⟨"", []⟩).tag = "calt" ∧
          ((freeze font config).1.featureRecord.getD j
              ⟨"", []⟩).lookupListIndex =
            (font.featureRecord.getD j ⟨"", []⟩).lookupListIndex ++
              ext) := by
  constructor
  · intro mv font s rest
    exact freezeLoop_cons_none mv font "calt" s rest rfl
  · intro font config j hj hc
    exact freezeLoop_calt_grows ["ss03", "ss05", "ss07"] config font j hj hc

/-- C10 witness: the "calt" skip and the append-only growth at a
concrete font and policy. -/
theorem C10_calt_not_processable_witness :
    (freezeLoop ["ss03", "ss05", "ss07"] movingTagFont
        [("calt", "disable")] =
      freezeLoop ["ss03", "ss05", "ss07"] movingTagFont []) ∧
      (∃ ext,
        ((freeze movingTagFont [("ss03", "enable")]).1.featureRecord.getD 0
            ⟨"", []⟩).tag = "calt" ∧
        ((freeze movingTagFont
              [("ss03", "enable")]).1.featureRecord.getD 0
            ⟨"", []⟩).lookupListIndex =
          (movingTagFont.featureRecord.getD 0
              ⟨"", []⟩).lookupListIndex ++ ext) :=
  ⟨C10_calt_not_processable.1 ["ss03", "ss05", "ss07"] movingTagFont
      "disable" [],
    C10_calt_not_processable.2 movingTagFont [("ss03", "enable")] 0
      (by decide) (by decide)⟩

/-- C7: when a policy entry enables a tag of the moving set (ss03,
ss05, ss07 in this build) that resolves to a feature of the font,
freeze continues on the font in which every "calt" record's
lookup-index list has the target feature's lookup indices appended
after its existing ones — both lists in their original order — while
every non-"calt" record is untouched. -/
theorem C7_moving_tag_appends_to_calt :
    (∀ (font : Font) (tag : String) (rest : List (String × String))
        (i : Nat),
        tag ∈ ["ss03", "ss05", "ss07"] →
        featDictIdx font.featureRecord tag = some i →
        freeze font ((tag, "enable") :: rest) =
          freezeLoop ["ss03", "ss05", "ss07"]
            { font with
              featureRecord :=
                extendCalt font.featureRecord
                  ((font.featureRecord.getD i ⟨"", []⟩).lookupListIndex) }
            rest) ∧
    (∀ (recs : List FeatureRec) (tgt : List Nat) (j : Nat),
        j < recs.length →
        ((recs.getD j ⟨"", []⟩).tag = "calt" →
          (extendCalt recs tgt).getD j ⟨"", []⟩ =
            { recs.getD j ⟨"", []⟩ with
              lookupListIndex :=
                (recs.getD j ⟨"", []⟩).lookupListIndex ++ tgt }) ∧
        ((recs.getD j ⟨"", []⟩).tag ≠ "calt" →
          (extendCalt recs tgt).getD j ⟨"", []⟩ =
            recs.getD j ⟨"", []⟩)) := by
  constructor
  · intro font tag rest i hmv hidx
    unfold freeze freeze_feature
    exact freezeLoop_cons_moving _ font tag "enable" i rest hidx
      (by decide) (by decide) hmv
  · intro recs tgt j hj
    refine ⟨?_, ?_⟩
    · intro hcase
      rw [extendCalt_getD recs tgt j hj, if_pos hcase]
    · intro hcase
      rw [extendCalt_getD recs tgt j hj, if_neg hcase]

/-- C7 witness: enabling "ss03" on a font with a "calt" feature appends
ss03's lookup indices to calt's list. -/
theorem C7_moving_tag_appends_to_calt_witness :
    "ss03" ∈ ["ss03", "ss05", "ss07"] ∧
      featDictIdx movingTagFont.featureRecord "ss03" = some 1 ∧
      freeze movingTagFont [("ss03", "enable")] =
        freezeLoop ["ss03", "ss05", "ss07"]
          { movingTagFont with
            featureRecord :=
              extendCalt movingTagFont.featureRecord
                ((movingTagFont.featureRecord.getD 1
                  ⟨"", []⟩).lookupListIndex) }
          [] :=
  ⟨by decide, by decide,
    C7_moving_tag_appends_to_calt.1 movingTagFont "ss03" [] 1 (by decide)
      (by decide)⟩

/-- Helper: the pair loop stops at a pair with a name missing from
either store and reports that pair, leaving the stores as built so
far. -/
theorem substPairs_missing (glyf : List (String × Glyph))
    (hmtx : List (String × (Int × Int))) (oldKey newKey : String)
    (rest : List (String × String))
    (h : (hasKey glyf oldKey && hasKey hmtx oldKey && hasKey glyf newKey &&
        hasKey hmtx newKey) = false) :
    substPairs glyf hmtx ((oldKey, newKey) :: rest) =
      (glyf, hmtx, some (oldKey, newKey)) := by
  cases h1 : getA glyf oldKey with
  | none => simp only [substPairs, h1]
  | some g1 =>
    cases h2 : getA hmtx oldKey with
    | none => simp only [substPairs, h1, h2]
    | some m1 =>
      cases h3 : getA glyf newKey with
      | none => simp only [substPairs, h1, h2, h3]
      | some g2 =>
        cases h4 : getA hmtx newKey with
        | none => simp only [substPairs, h1, h2, h3, h4]
        | some m2 =>
          exfalso
          rw [hasKey, hasKey, hasKey, hasKey, h1, h2, h3, h4] at h
          simp at h

/-- C1: the claim says a missing name pair aborts only that feature's
application with no partial substitution and that features still to be
processed stay correct. In the code the check sits inside the
pair-by-pair loop and the failing pair triggers `return` from the whole
run: concretely, freezing substAbortFont (feature "ss01" maps a→b then
c→zz with "zz" missing) reports ("c", "zz"), yet glyph "a" has already
been overwritten with the data of "b" — a partial substitution — and
the later entry disabling "ss02" is never processed (its lookup list
is not cleared). -/
theorem C1_partial_substitution_cex :
    (freeze substAbortFont [("ss01", "enable"), ("ss02", "disable")]).2 =
      some ("c", "zz") ∧
      getA (freeze substAbortFont
          [("ss01", "enable"), ("ss02", "disable")]).1.glyf "a" =
        getA substAbortFont.glyf "b" ∧
      getA substAbortFont.glyf "a" ≠ getA substAbortFont.glyf "b" ∧
      (freeze substAbortFont
          [("ss01", "enable"), ("ss02", "disable")]).1.featureRecord =
        substAbortFont.featureRecord := by
  refine ⟨by decide, by decide, by decide, by decide⟩

/-- C1 (amended): when a mapping pair names a glyph missing from the
outline or metrics store, freeze reports that offending pair and
returns immediately, aborting the whole run: the substitutions already
applied — including earlier pairs of the same feature — remain in
place (no rollback), and the remaining policy entries are left
unprocessed, so features already applied and the rest of the model are
not touched further. -/
theorem C1_missing_glyph_abort :
    (∀ (mv : List String) (font : Font) (tag status : String)
        (rest : List (String × String)) (i : Nat)
        (g : List (String × Glyph)) (m : List (String × (Int × Int)))
        (oldKey newKey : String),
        featDictIdx font.featureRecord tag = some i →
        status ≠ "ignore" → status ≠ "disable" → tag ∉ mv →
        substLookups font.lookupList font.glyf font.hmtx
            ((font.featureRecord.getD i ⟨"", []⟩).lookupListIndex) =
          (g, m, some (oldKey, newKey)) →
        freeze_feature font mv ((tag, status) :: rest) =
          ({ font with glyf := g, hmtx := m }, some (oldKey, newKey))) ∧
    (∀ (glyf : List (String × Glyph)) (hmtx : List (String × (Int × Int)))
        (oldKey newKey : String) (rest : List (String × String)),
        (hasKey glyf oldKey && hasKey hmtx oldKey && hasKey glyf newKey &&
            hasKey hmtx newKey) = false →
        substPairs glyf hmtx ((oldKey, newKey) :: rest) =
          (glyf, hmtx, some (oldKey, newKey))) := by
  constructor
  · intro mv font tag status rest i g m oldKey newKey hidx hs1 hs2 hmv hsub
    unfold freeze_feature
    exact freezeLoop_cons_subst_abort mv font tag status i rest g m
      (oldKey, newKey) hidx hs1 hs2 hmv hsub
  · exact substPairs_missing

/-- C1 witness: the abort semantics applied at the concrete font. -/
theorem C1_missing_glyph_abort_witness :
    featDictIdx substAbortFont.featureRecord "ss01" = some 0 ∧
      freeze_feature substAbortFont ["ss03", "ss05", "ss07"]
          [("ss01", "enable"), ("ss02", "disable")] =
        ({ substAbortFont with
            glyf := [("a", glyphStub 2), ("b", glyphStub 2),
              ("c", glyphStub 3), ("d", glyphStub 4), ("e", glyphStub 5)]
            hmtx := [("a", (20, 2)), ("b", (20, 2)), ("c", (30, 3)),
              ("d", (40, 4)), ("e", (50, 5))] },
          some ("c", "zz")) :=
  ⟨by decide,
    C1_missing_glyph_abort.1 ["ss03", "ss05", "ss07"] substAbortFont
      "ss01" "enable" [("ss02", "disable")] 0 _ _ "c" "zz" (by decide)
      (by decide) (by decide) (by decide) (by decide)⟩

/-- Helper: an ignore/disable-only policy never aborts the run. -/
theorem freezeLoop_ignDis_no_abort (mv : List String)
    (config : List (String × String)) :
    ∀ font : Font, (∀ p ∈ config, p.2 = "ignore" ∨ p.2 = "disable") →
      (freezeLoop mv font config).2 = none := by
  induction config with
  | nil => intro font _; rw [freezeLoop_nil]
  | cons p rest ih =>
    intro font hpol
    obtain ⟨t, s⟩ := p
    have hrest := fun q hq => hpol q (List.mem_cons_of_mem _ hq)
    rcases hpol (t, s) (List.mem_cons_self _ _) with hs | hs <;> subst hs
    · rw [freezeLoop_cons_ignore]
      exact ih font hrest
    · cases hidx : featDictIdx font.featureRecord t with
      | none =>
        rw [freezeLoop_cons_none _ _ _ _ _ hidx]
        exact ih font hrest
      | some i =>
        rw [freezeLoop_cons_disable _ _ _ _ _ hidx]
        exact ih _ hrest

/-- Helper: an ignore/disable-only run preserves every feature tag. -/
theorem freezeLoop_ignDis_tags (mv : List String)
    (config : List (String × String)) :
    ∀ font : Font, (∀ p ∈ config, p.2 = "ignore" ∨ p.2 = "disable") →
      (freezeLoop mv font config).1.featureRecord.map FeatureRec.tag =
        font.featureRecord.map FeatureRec.tag := by
  induction config with
  | nil => intro font _; rw [freezeLoop_nil]
  | cons p rest ih =>
    intro font hpol
    obtain ⟨t, s⟩ := p
    have hrest := fun q hq => hpol q (List.mem_cons_of_mem _ hq)
    rcases hpol (t, s) (List.mem_cons_self _ _) with hs | hs <;> subst hs
    · rw [freezeLoop_cons_ignore]
      exact ih font hrest
    · cases hidx : featDictIdx font.featureRecord t with
      | none =>
        rw [freezeLoop_cons_none _ _ _ _ _ hidx]
        exact ih font hrest
      | some i =>
        rw [freezeLoop_cons_disable _ _ _ _ _ hidx, ih _ hrest]
        exact clearFeature_tags font.featureRecord i

/-- Helper: an ignore/disable-only run keeps a cleared lookup list
cleared. -/
theorem freezeLoop_ignDis_keeps_cleared (mv : List String)
    (config : List (String × String)) :
    ∀ (font : Font) (i : Nat),
      (∀ p ∈ config, p.2 = "ignore" ∨ p.2 = "disable") →
      (font.featureRecord.getD i ⟨"", []⟩).lookupListIndex = [] →
      ((freezeLoop mv font config).1.featureRecord.getD i
          ⟨"", []⟩).lookupListIndex = [] := by
  induction config with
  | nil =>
    intro font i _ h
    rw [freezeLoop_nil]
    exact h
  | cons p rest ih =>
    intro font i hpol h
    obtain ⟨t, s⟩ := p
    have hrest := fun q hq => hpol q (List.mem_cons_of_mem _ hq)
    rcases hpol (t, s) (List.mem_cons_self _ _) with hs | hs <;> subst hs
    · rw [freezeLoop_cons_ignore]
      exact ih font i hrest h
    · cases hidx : featDictIdx font.featureRecord t with
      | none =>
        rw [freezeLoop_cons_none _ _ _ _ _ hidx]
        exact ih font i hrest h
      | some j =>
        rw [freezeLoop_cons_disable _ _ _ _ _ hidx]
        exact ih _ i hrest
          (clearFeature_keeps_cleared font.featureRecord i j h)

/-- Helper: on a font in which every disabled tag already has an empty
lookup list, an ignore/disable-only run is the identity. -/
theorem freezeLoop_ignDis_fix (mv : List String)
    (config : List (String × String)) :
    ∀ font : Font, (∀ p ∈ config, p.2 = "ignore" ∨ p.2 = "disable") →
      (∀ tag i, (tag, "disable") ∈ config →
        featDictIdx font.featureRecord tag = some i →
        (font.featureRecord.getD i ⟨"", []⟩).lookupListIndex = []) →
      freezeLoop mv font config = (font, none) := by
  induction config with
  | nil => intro font _ _; rw [freezeLoop_nil]
  | cons p rest ih =>
    intro font hpol hdis
    obtain ⟨t, s⟩ := p
    have hrest := fun q hq => hpol q (List.mem_cons_of_mem _ hq)
    have hdisrest := fun tag i hm =>
      hdis tag i (List.mem_cons_of_mem _ hm)
    rcases hpol (t, s) (List.mem_cons_self _ _) with hs | hs <;> subst hs
    · rw [freezeLoop_cons_ignore]
      exact ih font hrest hdisrest
    · cases hidx : featDictIdx font.featureRecord t with
      | none =>
        rw [freezeLoop_cons_none _ _ _ _ _ hidx]
        exact ih font hrest hdisrest
      | some i =>
        have hcl := hdis t i (List.mem_cons_self _ _) hidx
        rw [freezeLoop_cons_disable _ _ _ _ _ hidx,
          clearFeature_cleared font.featureRecord i hcl]
        exact ih font hrest hdisrest

/-- Helper: after an ignore/disable-only run, every tag the policy
disables has an empty lookup list wherever it resolves. -/
theorem freezeLoop_ignDis_disabled_cleared (mv : List String)
    (config : List (String × String)) :
    ∀ font : Font, (∀ p ∈ config, p.2 = "ignore" ∨ p.2 = "disable") →
      ∀ tag i, (tag, "disable") ∈ config →
        featDictIdx (freezeLoop mv font config).1.featureRecord tag =
          some i →
        ((freezeLoop mv font config).1.featureRecord.getD i
            ⟨"", []⟩).lookupListIndex = [] := by
  induction config with
  | nil =>
    intro font _ tag i hm
    cases hm
  | cons p rest ih =>
    intro font hpol tag i hm hidx
    obtain ⟨t, s⟩ := p
    have hrest := fun q hq => hpol q (List.mem_cons_of_mem _ hq)
    rcases List.mem_cons.mp hm with heq | hmem
    · injection heq with h1 h2
      subst h1
      subst h2
      cases hidx0 : featDictIdx font.featureRecord tag with
      | none =>
        rw [freezeLoop_cons_none _ _ _ _ _ hidx0] at hidx
        have htags := freezeLoop_ignDis_tags mv rest font hrest
        rw [featDictIdx_congr htags tag, hidx0] at hidx
        cases hidx
      | some i0 =>
        rw [freezeLoop_cons_disable _ _ _ _ _ hidx0] at hidx ⊢
        have htags :=
          freezeLoop_ignDis_tags mv rest
            { font with
              featureRecord := clearFeature font.featureRecord i0 } hrest
        have h1 := featDictIdx_congr htags tag
        have h2 :=
          featDictIdx_congr (clearFeature_tags font.featureRecord i0) tag
        rw [h1, h2, hidx0] at hidx
        injection hidx with h3
        subst h3
        apply freezeLoop_ignDis_keeps_cleared mv rest _ i0 hrest
        obtain ⟨hlt, _, _⟩ := featDictIdx_some hidx0
        rw [clearFeature_getD_self font.featureRecord i0 _ hlt]
    · rcases hpol (t, s) (List.mem_cons_self _ _) with hs | hs <;> subst hs
      · rw [freezeLoop_cons_ignore] at hidx ⊢
        exact ih font hrest tag i hmem hidx
      · cases hidx0 : featDictIdx font.featureRecord t with
        | none =>
          rw [freezeLoop_cons_none _ _ _ _ _ hidx0] at hidx ⊢
          exact ih font hrest tag i hmem hidx
        | some i0 =>
          rw [freezeLoop_cons_disable _ _ _ _ _ hidx0] at hidx ⊢
          exact ih _ hrest tag i hmem hidx

/-- C2: the claim states freeze is idempotent for every policy. It is
not: enabling a moving-tag feature appends its lookup indices to every
"calt" record again on the second run. Concretely, freezing
movingTagFont with {ss03: enable} once gives calt lookups [0, 1], and
freezing the result again gives [0, 1, 1] — a different model. -/
theorem C2_double_freeze_differs_cex :
    (freeze movingTagFont [("ss03", "enable")]).1.featureRecord =
      [⟨"calt", [0, 1]⟩, ⟨"ss03", [1]⟩] ∧
      (freeze (freeze movingTagFont [("ss03", "enable")]).1
          [("ss03", "enable")]).1.featureRecord =
        [⟨"calt", [0, 1, 1]⟩, ⟨"ss03", [1]⟩] ∧
      (freeze (freeze movingTagFont [("ss03", "enable")]).1
          [("ss03", "enable")]).1 ≠
        (freeze movingTagFont [("ss03", "enable")]).1 := by
  refine ⟨by decide, by decide, by decide⟩

/-- C2 (amended): freeze is idempotent for every policy that enables
nothing — when every policy value is "ignore" or "disable", the run
never aborts and applying freeze to its own result reproduces that
result exactly; an enabling entry can break idempotence (a moving tag
appends to "calt" again; a chained direct substitution can propagate
further). -/
theorem C2_freeze_idempotent_no_enable (font : Font)
    (config : List (String × String))
    (hpol : ∀ p ∈ config, p.2 = "ignore" ∨ p.2 = "disable") :
    (freeze font config).2 = none ∧
      freeze (freeze font config).1 config = freeze font config := by
  have hno :=
    freezeLoop_ignDis_no_abort ["ss03", "ss05", "ss07"] config font hpol
  constructor
  · exact hno
  · unfold freeze freeze_feature
    rcases hres : freezeLoop ["ss03", "ss05", "ss07"] font config with
      ⟨f, r⟩
    have hr : r = none := by
      rw [hres] at hno
      exact hno
    subst hr
    have hdc : ∀ tag i, (tag, "disable") ∈ config →
        featDictIdx f.featureRecord tag = some i →
        (f.featureRecord.getD i ⟨"", []⟩).lookupListIndex = [] := by
      intro tag i hm hidx
      have hlem :=
        freezeLoop_ignDis_disabled_cleared ["ss03", "ss05", "ss07"] config
          font hpol tag i hm
      rw [hres] at hlem
      exact hlem hidx
    exact freezeLoop_ignDis_fix ["ss03", "ss05", "ss07"] config f hpol hdc

/-- C2 witness: idempotence of a disable-only policy at a concrete
font. -/
theorem C2_freeze_idempotent_no_enable_witness :
    (freeze movingTagFont [("ss03", "disable")]).2 = none ∧
      freeze (freeze movingTagFont [("ss03", "disable")]).1
          [("ss03", "disable")] =
        freeze movingTagFont [("ss03", "disable")] :=
  C2_freeze_idempotent_no_enable movingTagFont [("ss03", "disable")]
    (by decide)

/-! ### Lemmas for the width normalizer -/

/-- Helper: overwriting one key leaves every other key's value
unchanged. -/
theorem getA_setA_ne {V : Type} (l : List (String × V)) (k k' : String)
    (v : V) (h : k ≠ k') :
    getA (setA l k' v) k = getA l k := by
  induction l with
  | nil => rfl
  | cons p rest ih =>
    simp only [setA, List.map_cons]
    by_cases hp : p.1 = k'
    · rw [if_pos hp]
      simp only [getA]
      rw [if_neg (fun he => h (he.symm)), if_neg (fun he => h (hp ▸ he).symm)]
      exact ih
    · rw [if_neg hp]
      simp only [getA]
      by_cases hk : p.1 = k
      · rw [if_pos hk, if_pos hk]
      · rw [if_neg hk, if_neg hk]
        exact ih

/-- Helper: overwriting a present key stores the new value. -/
theorem getA_setA_self {V : Type} (l : List (String × V)) (k : String)
    (v : V) (h : (getA l k).isSome = true) :
    getA (setA l k v) k = some v := by
  induction l with
  | nil => simp [getA] at h
  | cons p rest ih =>
    simp only [setA, List.map_cons]
    by_cases hp : p.1 = k
    · rw [if_pos hp]
      simp only [getA]
      rw [if_pos trivial]
    · rw [if_neg hp]
      simp only [getA] at h ⊢
      rw [if_neg hp] at h ⊢
      exact ih h

/-- Helper: processing one glyph name touches no other name's entries
(and leaves the glyph order alone). -/
theorem changeOne_other (f : Font) (name other : String)
    (mw tw : Int) (h : other ≠ name) :
    getA (changeOne f name mw tw).glyf other = getA f.glyf other ∧
      getA (changeOne f name mw tw).hmtx other = getA f.hmtx other ∧
      (changeOne f name mw tw).glyphOrder = f.glyphOrder := by
  unfold changeOne
  cases getA f.glyf name with
  | none => exact ⟨rfl, rfl, rfl⟩
  | some glyph =>
    cases getA f.hmtx name with
    | none => exact ⟨rfl, rfl, rfl⟩
    | some wl =>
      dsimp only
      by_cases h1 : wl.1 ≠ mw
      · rw [if_pos h1]
        exact ⟨rfl, rfl, rfl⟩
      · rw [if_neg h1]
        by_cases h2 : glyph.numberOfContours = 0
        · rw [if_pos h2]
          exact ⟨rfl, getA_setA_ne _ _ _ _ h, rfl⟩
        · rw [if_neg h2]
          exact ⟨getA_setA_ne _ _ _ _ h, getA_setA_ne _ _ _ _ h, rfl⟩

/-- Helper: folding the per-glyph update over names that do not include
`other` leaves `other`'s entries unchanged. -/
theorem foldl_changeOne_not_mem (mw tw : Int) (names : List String) :
    ∀ (f : Font) (other : String), other ∉ names →
      getA ((names.foldl (fun g n => changeOne g n mw tw) f)).glyf other =
        getA f.glyf other ∧
      getA ((names.foldl (fun g n => changeOne g n mw tw) f)).hmtx other =
        getA f.hmtx other := by
  induction names with
  | nil => intro f other _; exact ⟨rfl, rfl⟩
  | cons n rest ih =>
    intro f other hmem
    have hne : other ≠ n := fun e => hmem (e ▸ List.mem_cons_self _ _)
    obtain ⟨h1, h2, _⟩ := changeOne_other f n other mw tw hne
    simp only [List.foldl_cons]
    obtain ⟨ha, hb⟩ := ih (changeOne f n mw tw) other
      (fun hm => hmem (List.mem_cons_of_mem _ hm))
    exact ⟨ha.trans h1, hb.trans h2⟩

/-- Helper: the per-glyph update written out at a name whose entries
are known. -/
theorem changeOne_at (f : Font) (name : String) (mw tw : Int)
    (glyph : Glyph) (w lsb : Int)
    (hg : getA f.glyf name = some glyph)
    (hh : getA f.hmtx name = some (w, lsb)) :
    changeOne f name mw tw =
      (if w ≠ mw then f
      else if glyph.numberOfContours = 0 then
        { f with hmtx := setA f.hmtx name (tw, lsb) }
      else
        { f with
          glyf := setA f.glyf name
            { glyph with
              coordinates :=
                translateCoords glyph.coordinates (roundHalfInt (tw - w))
              xMin := (calcIntBounds
                (translateCoords glyph.coordinates
                  (roundHalfInt (tw - w)))).1
              yMin := (calcIntBounds
                (translateCoords glyph.coordinates
                  (roundHalfInt (tw - w)))).2.1
              xMax := (calcIntBounds
                (translateCoords glyph.coordinates
                  (roundHalfInt (tw - w)))).2.2.1
              yMax := (calcIntBounds
                (translateCoords glyph.coordinates
                  (roundHalfInt (tw - w)))).2.2.2 }
          hmtx := setA f.hmtx name (tw, lsb + roundHalfInt (tw - w)) }) := by
  unfold changeOne
  rw [hg, hh]

/-- C6: for a glyph whose advance width equals match_width exactly, a
contourless glyph gets advance width target_width with its side bearing
unchanged, while a contoured glyph has its outline translated by
(round((target_width - match_width)/2), 0), its bounding box recomputed
from the translated coordinates, its advance width set to target_width
and its left side bearing increased by that delta; glyphs of any other
width are untouched. The claim's concrete instance (match 1200, target
1000, contoured glyph with left side bearing 50) yields width 1000,
side bearing -50 and an outline translated by (-100, 0). -/
theorem C6_change_char_width :
    (∀ (font : Font) (mw tw : Int) (name : String) (glyph : Glyph)
        (w lsb : Int),
        font.glyphOrder.Nodup → name ∈ font.glyphOrder →
        getA font.glyf name = some glyph →
        getA font.hmtx name = some (w, lsb) →
        (w = mw → glyph.numberOfContours = 0 →
          getA (change_char_width font mw tw).glyf name = some glyph ∧
          getA (change_char_width font mw tw).hmtx name =
            some (tw, lsb)) ∧
        (w = mw → glyph.numberOfContours ≠ 0 →
          getA (change_char_width font mw tw).glyf name =
            some { glyph with
              coordinates :=
                translateCoords glyph.coordinates (roundHalfInt (tw - w))
              xMin := (calcIntBounds
                (translateCoords glyph.coordinates
                  (roundHalfInt (tw - w)))).1
              yMin := (calcIntBounds
                (translateCoords glyph.coordinates
                  (roundHalfInt (tw - w)))).2.1
              xMax := (calcIntBounds
                (translateCoords glyph.coordinates
                  (roundHalfInt (tw - w)))).2.2.1
              yMax := (calcIntBounds
                (translateCoords glyph.coordinates
                  (roundHalfInt (tw - w)))).2.2.2 } ∧
          getA (change_char_width font mw tw).hmtx name =
            some (tw, lsb + roundHalfInt (tw - w))) ∧
        (w ≠ mw →
          getA (change_char_width font mw tw).glyf name = some glyph ∧
          getA (change_char_width font mw tw).hmtx name =
            some (w, lsb))) ∧
    roundHalfInt (1000 - 1200) = -100 ∧
    getA (change_char_width narrowExampleFont 1200 1000).hmtx "one" =
      some (1000, -50) ∧
    getA (change_char_width narrowExampleFont 1200 1000).glyf "one" =
      some ⟨1, [(0, 0), (1000, 800)], 0, 0, 1000, 800⟩ ∧
    getA (change_char_width narrowExampleFont 1200 1000).hmtx "blank" =
      some (1000, 0) := by
  refine ⟨?_, by decide, by decide, by decide, by decide⟩
  intro font mw tw name glyph w lsb hnd hmem hg hh
  obtain ⟨l1, l2, horder⟩ := List.append_of_mem hmem
  have hfold : change_char_width font mw tw =
      l2.foldl (fun g n => changeOne g n mw tw)
        (changeOne
          (l1.foldl (fun g n => changeOne g n mw tw)
            { font with advanceWidthMax := tw })
          name mw tw) := by
    unfold change_char_width
    dsimp only
    rw [horder, List.foldl_append, List.foldl_cons]
  rw [horder] at hnd
  have hd := List.nodup_append.mp hnd
  have hn1 : name ∉ l1 := fun hm1 => hd.2.2 hm1 (List.mem_cons_self _ _)
  have hn2 : name ∉ l2 := (List.nodup_cons.mp hd.2.1).1
  have hpre := foldl_changeOne_not_mem mw tw l1
    { font with advanceWidthMax := tw } name hn1
  have hg1 : getA (l1.foldl (fun g n => changeOne g n mw tw)
      { font with advanceWidthMax := tw }).glyf name = some glyph := by
    rw [hpre.1]
    exact hg
  have hh1 : getA (l1.foldl (fun g n => changeOne g n mw tw)
      { font with advanceWidthMax := tw }).hmtx name = some (w, lsb) := by
    rw [hpre.2]
    exact hh
  have hco := changeOne_at _ name mw tw glyph w lsb hg1 hh1
  refine ⟨?_, ?_, ?_⟩
  · intro hw hc
    rw [hfold, hco, if_neg (not_not_intro hw), if_pos hc]
    obtain ⟨ha, hb⟩ := foldl_changeOne_not_mem mw tw l2 _ name hn2
    constructor
    · rw [ha]
      exact hg1
    · rw [hb]
      exact getA_setA_self _ _ _ (by rw [hh1]; rfl)
  · intro hw hc
    rw [hfold, hco, if_neg (not_not_intro hw), if_neg hc]
    obtain ⟨ha, hb⟩ := foldl_changeOne_not_mem mw tw l2 _ name hn2
    constructor
    · rw [ha]
      exact getA_setA_self _ _ _ (by rw [hg1]; rfl)
    · rw [hb]
      exact getA_setA_self _ _ _ (by rw [hh1]; rfl)
  · intro hw
    rw [hfold, hco, if_pos hw]
    obtain ⟨ha, hb⟩ := foldl_changeOne_not_mem mw tw l2 _ name hn2
    exact ⟨by rw [ha]; exact hg1, by rw [hb]; exact hh1⟩

/-- C6 witness: the general statement applied to the concrete example
font at its contoured glyph "one" and its contourless glyph "blank". -/
theorem C6_change_char_width_witness :
    getA (change_char_width narrowExampleFont 1200 1000).hmtx "one" =
      some (1000, 50 + roundHalfInt (1000 - 1200)) ∧
      getA (change_char_width narrowExampleFont 1200 1000).hmtx "blank" =
        some (1000, 0) :=
  ⟨((C6_change_char_width.1 narrowExampleFont 1200 1000 "one"
      ⟨1, [(100, 0), (1100, 800)], 100, 0, 1100, 800⟩ 1200 50
      (by decide) (by decide) (by decide) (by decide)).2.1 rfl
      (by decide)).2,
    ((C6_change_char_width.1 narrowExampleFont 1200 1000 "blank"
      ⟨0, [], 0, 0, 0, 0⟩ 1200 0
      (by decide) (by decide) (by decide) (by decide)).1 rfl rfl).2⟩

end MapleFont
